import Mathlib

/-!
Verification of the diff-to-display pipeline of the `gd` interactive
git-diff viewer.  The TypeScript source is shallowly embedded here:
lines are lists of characters (`Str`), the two formatters
(`formatInline`, `formatSideBySide`), the file-tree builder
(`renderFileTree`), the SGR mouse decoder (`findSgr`,
`mouseDelta000`, `mouseDeltaDiffTs`) and the scroll clamp
(`clampOffset`, `renderOffset`) are translated function by function.
JavaScript while-loops become fuel-indexed recursions whose fuel is
the number of remaining input lines, which bounds the iteration count
of every loop in the source.
-/

/-- A JavaScript string, modelled as its sequence of characters. -/
abbrev Str := List Char

/-- Marker `diff --git` tested by `line.startsWith("diff --git")`. -/
def pDiffGit : Str := ['d', 'i', 'f', 'f', ' ', '-', '-', 'g', 'i', 't']

/-- Marker `index` from the metadata regex `^(index|---|\+\+\+)`. -/
def pIndex : Str := ['i', 'n', 'd', 'e', 'x']

/-- Marker `---` (old-path metadata line). -/
def pDash3 : Str := ['-', '-', '-']

/-- Marker `+++` (new-path metadata line). -/
def pPlus3 : Str := ['+', '+', '+']

/-- Marker `@@` tested by `line.startsWith("@@")`. -/
def pAt : Str := ['@', '@']

/-- Leading character of a removed line. -/
def pDash : Str := ['-']

/-- Leading character of an added line. -/
def pPlus : Str := ['+']

/-- Leading character of a context line. -/
def pSpace : Str := [' ']

/-- ANSI reset sequence `\x1b[0m`. -/
def ansiReset : Str := ['\x1b', '[', '0', 'm']

/-- ANSI red `\x1b[31m`. -/
def ansiRed : Str := ['\x1b', '[', '3', '1', 'm']

/-- ANSI green `\x1b[32m`. -/
def ansiGreen : Str := ['\x1b', '[', '3', '2', 'm']

/-- ANSI cyan `\x1b[36m`. -/
def ansiCyan : Str := ['\x1b', '[', '3', '6', 'm']

/-- JavaScript `p.startsWith(...)` / an anchored prefix test. -/
def hasPre : Str → Str → Bool
  | [], _ => true
  | _ :: _, [] => false
  | p :: ps, c :: cs => p == c && hasPre ps cs

/-- JavaScript `text.split(sep)` for a one-character separator:
always returns at least one (possibly empty) piece. -/
def splitOnChar (c : Char) : Str → List Str
  | [] => [[]]
  | x :: xs =>
    match splitOnChar c xs with
    | [] => [[]]
    | h :: t => if x == c then [] :: h :: t else (x :: h) :: t

/-- `parseInt` on a string of decimal digits. -/
def digitsToNat (ds : Str) : Nat :=
  ds.foldl (fun acc c => acc * 10 + (c.toNat - ('0').toNat)) 0

/-- The tail returned by the optional `(?:,(\d+))?` group of the hunk
regexes: consumes `,` plus at least one digit, otherwise nothing. -/
def optCommaCount : Str → Option Nat × Str
  | ',' :: r =>
    let ds := r.takeWhile (fun c => c.isDigit)
    if ds.isEmpty then (none, ',' :: r)
    else (some (digitsToNat ds), r.dropWhile (fun c => c.isDigit))
  | r => (none, r)

/-- One attempt of `/@@ -(\d+)(?:,(\d+))? \+(\d+)(?:,(\d+))? @@/` at
the head of the string.  Counts default to 1 when the comma group is
absent, exactly as `hh[2] ? parseInt(hh[2]) : 1` does at the use
sites. -/
def matchHunkAt : Str → Option (Nat × Nat × Nat × Nat)
  | '@' :: '@' :: ' ' :: '-' :: r1 =>
    let d1 := r1.takeWhile (fun c => c.isDigit)
    let r2 := r1.dropWhile (fun c => c.isDigit)
    if d1.isEmpty then none
    else
      let p1 := optCommaCount r2
      match p1.2 with
      | ' ' :: '+' :: r4 =>
        let d3 := r4.takeWhile (fun c => c.isDigit)
        let r5 := r4.dropWhile (fun c => c.isDigit)
        if d3.isEmpty then none
        else
          let p3 := optCommaCount r5
          match p3.2 with
          | ' ' :: '@' :: '@' :: _ =>
            some (digitsToNat d1, (p1.1).getD 1, digitsToNat d3, (p3.1).getD 1)
          | _ => none
      | _ => none
  | _ => none

/-- Unanchored search of the hunk-range regex over a line, advancing
one character after every failed start position, as a regex engine
does. -/
def findHunk : Str → Option (Nat × Nat × Nat × Nat)
  | [] => none
  | c :: rest =>
    match matchHunkAt (c :: rest) with
    | some x => some x
    | none => findHunk rest

/-- `\s?`: consume one leading whitespace character when present. -/
def dropWsOpt : Str → Str
  | [] => []
  | c :: r => if c.isWhitespace then r else c :: r

/-- JavaScript `String.prototype.trim`. -/
def trimStr (l : Str) : Str :=
  ((l.dropWhile (fun c => c.isWhitespace)).reverse.dropWhile
    (fun c => c.isWhitespace)).reverse

/-- The anchored `^@@\s-\d+(?:,\d+)?\s\+\d+(?:,\d+)?\s@@\s?` marker of
`cleanHunkHeader`: returns the rest of the line when it matches. -/
def hunkMarkerRest : Str → Option Str
  | '@' :: '@' :: c1 :: '-' :: r1 =>
    if c1.isWhitespace then
      let d1 := r1.takeWhile (fun c => c.isDigit)
      let r2 := r1.dropWhile (fun c => c.isDigit)
      if d1.isEmpty then none
      else
        match (optCommaCount r2).2 with
        | c2 :: '+' :: r4 =>
          if c2.isWhitespace then
            let d3 := r4.takeWhile (fun c => c.isDigit)
            let r5 := r4.dropWhile (fun c => c.isDigit)
            if d3.isEmpty then none
            else
              match (optCommaCount r5).2 with
              | c3 :: '@' :: '@' :: r7 =>
                if c3.isWhitespace then some (dropWsOpt r7) else none
              | _ => none
          else none
        | _ => none
    else none
  | _ => none

/-- `cleanHunkHeader`: strip the numeric range marker when it is
present, then trim — `line.replace(re, "").trim()`. -/
def cleanHunkHeader (l : Str) : Str :=
  match hunkMarkerRest l with
  | some r => trimStr r
  | none => trimStr l

/-- The lazy part ` [ab]/` of the file-header regex: find the first
occurrence and return everything after it (group 2). -/
def fileTail : Str → Option Str
  | ' ' :: 'a' :: '/' :: rest => some rest
  | ' ' :: 'b' :: '/' :: rest => some rest
  | _ :: rest => fileTail rest
  | [] => none

/-- `extractFileName`: `^diff --git [ab]\/(.*?) [ab]\/(.*)$`, keeping
the right-hand path; the line itself when the regex does not match. -/
def extractFileName (l : Str) : Str :=
  match l with
  | 'd' :: 'i' :: 'f' :: 'f' :: ' ' :: '-' :: '-' :: 'g' :: 'i' :: 't' :: ' '
      :: b :: '/' :: rest =>
    if b == 'a' || b == 'b' then
      match fileTail rest with
      | some t => t
      | none => l
    else l
  | _ => l

/-- The full-width divider `"—".repeat(width)`. -/
def mkDivider (w : Int) : Str := List.replicate w.toNat '—'

/-- The decimal rendering of a number, `"" + n`. -/
def natStr (n : Nat) : Str := (Nat.repr n).data

/-- The scan over all hunk-range markers computing `maxOldLine` and
`maxNewLine` (each `start + count`). -/
def maxOldNew (lines : List Str) : Nat × Nat :=
  lines.foldl
    (fun acc l =>
      match findHunk l with
      | some x => (Nat.max acc.1 (x.1 + x.2.1), Nat.max acc.2 (x.2.2.1 + x.2.2.2))
      | none => acc)
    (0, 0)

/-- `digitsOld = ("" + (maxOldLine || 1)).length`. -/
def digitsOldOf (lines : List Str) : Nat :=
  natStr (if (maxOldNew lines).1 == 0 then 1 else (maxOldNew lines).1) |>.length

/-- `digitsNew = ("" + (maxNewLine || 1)).length`. -/
def digitsNewOf (lines : List Str) : Nat :=
  natStr (if (maxOldNew lines).2 == 0 then 1 else (maxOldNew lines).2) |>.length

/-- `contentW = terminalWidth - (digitsOld + digitsNew + 4) - 3`. -/
def contentWOf (lines : List Str) (tw : Int) : Int :=
  tw - ((digitsOldOf lines : Int) + (digitsNewOf lines : Int) + 4) - 3

/-- `leftW = Math.floor(contentW / 2)`. -/
def leftWOf (lines : List Str) (tw : Int) : Int :=
  Int.fdiv (contentWOf lines tw) 2

/-- `rightW = contentW - leftW`. -/
def rightWOf (lines : List Str) (tw : Int) : Int :=
  contentWOf lines tw - leftWOf lines tw

/-- One output row of the side-by-side formatter, before the string
template is applied: a passthrough row (blank line, divider, file
name, cleaned hunk header), a context row carrying both line numbers,
or a paired removed/added row whose sides are present exactly when the
corresponding run still has a line at that position. -/
inductive SRow where
  | raw : Str → SRow
  | ctxRow : Nat → Nat → Str → SRow
  | pairRow : Option Nat → Str → Option Nat → Str → SRow
  deriving DecidableEq

/-- `s.padStart(w)` for a rendered number. -/
def padStartN (n : Nat) (wdt : Nat) : Str :=
  List.replicate (wdt - (natStr n).length) ' ' ++ natStr n

/-- `s.padEnd(w)` with spaces (no-op when `w` is not above the
length). -/
def padEndW (s : Str) (wdt : Int) : Str :=
  s ++ List.replicate (wdt.toNat - s.length) ' '

/-- `s.slice(0, e)`: for negative `e` JavaScript clamps the end to
`max(length + e, 0)`. -/
def sliceTo (s : Str) (e : Int) : Str :=
  if e < 0 then s.take (s.length - e.natAbs) else s.take e.toNat

/-- The ` | ` column separator of the row templates. -/
def sepBar : Str := [' ', '|', ' ']

/-- The string template of `outputLines.push` for each row kind
(context rows are unstyled; paired rows color a side exactly when its
content is non-empty, and blank a gutter exactly when its side is
absent). -/
def renderSRow (dO dN : Nat) (lW rW : Int) : SRow → Str
  | SRow.raw s => s
  | SRow.ctxRow o n content =>
    padStartN o dO ++ [' '] ++ padEndW (sliceTo content lW) lW ++ sepBar
      ++ padStartN n dN ++ [' '] ++ padEndW (sliceTo content rW) rW
  | SRow.pairRow o dl n ar =>
    (match o with
     | some v => padStartN v dO
     | none => List.replicate dO ' ') ++ [' ']
      ++ (if dl.isEmpty then [] else ansiRed)
      ++ padEndW (sliceTo dl lW) lW ++ ansiReset ++ sepBar
      ++ (match n with
          | some v => padStartN v dN
          | none => List.replicate dN ' ') ++ [' ']
      ++ (if ar.isEmpty then [] else ansiGreen)
      ++ padEndW (sliceTo ar rW) rW ++ ansiReset

/-- The tail of the paired block once the removed run is exhausted:
rows with a blank left side, the new counter advancing per row. -/
def addedRows : Nat → List Str → List SRow
  | _, [] => []
  | cn, ar :: ars => SRow.pairRow none [] (some cn) ar :: addedRows (cn + 1) ars

/-- The `for j in 0 .. max(d.length, a.length)` loop pairing the `j`-th
removed content with the `j`-th added content; `currOld`/`currNew`
advance only on rows where their side is present. -/
def pairRows : Nat → Nat → List Str → List Str → List SRow
  | _, cn, [], a => addedRows cn a
  | co, cn, dl :: ds, [] =>
    SRow.pairRow (some co) dl none [] :: pairRows (co + 1) cn ds []
  | co, cn, dl :: ds, ar :: ars =>
    SRow.pairRow (some co) dl (some cn) ar :: pairRows (co + 1) (cn + 1) ds ars

/-- The inner hunk-body loop of `formatSideBySide`
(`while i < lines.length && !/^(diff --git|@@)/.test(lines[i])`), as a
fuel recursion: returns the rows produced and the lines left at the
next boundary.  A leading space yields a context row and advances both
counters; a leading `-`/`+` collects the two runs and emits the paired
block; any other line is skipped.  The fuel is the number of remaining
lines, which the loop never exceeds. -/
def hunkBodyGo : Nat → Nat → Nat → List Str → List SRow × List Str
  | 0, _, _, ls => ([], ls)
  | _ + 1, _, _, [] => ([], [])
  | f + 1, co, cn, l :: rest =>
    if hasPre pDiffGit l || hasPre pAt l then ([], l :: rest)
    else if hasPre pSpace l then
      let r := hunkBodyGo f (co + 1) (cn + 1) rest
      (SRow.ctxRow co cn (l.drop 1) :: r.1, r.2)
    else if hasPre pDash l || hasPre pPlus l then
      let dL := (l :: rest).takeWhile (fun x => hasPre pDash x)
      let r1 := (l :: rest).dropWhile (fun x => hasPre pDash x)
      let aL := r1.takeWhile (fun x => hasPre pPlus x)
      let r2 := r1.dropWhile (fun x => hasPre pPlus x)
      let rows := pairRows co cn (dL.map (fun x => x.drop 1)) (aL.map (fun x => x.drop 1))
      let r := hunkBodyGo f (co + dL.length) (cn + aL.length) r2
      (rows ++ r.1, r.2)
    else hunkBodyGo f co cn rest

/-- The outer line loop of `formatSideBySide`: file headers produce a
blank row, a divider row and a file-name row; metadata lines are
dropped; a `@@` line emits its cleaned header (when non-empty) and
then runs the hunk-body loop from the parsed start numbers (defaulting
to 1 when the range regex does not match); any other line is
skipped. -/
def outGo (dv : Str) : Nat → List Str → List SRow
  | 0, _ => []
  | _ + 1, [] => []
  | f + 1, l :: rest =>
    if hasPre pDiffGit l then
      SRow.raw [] :: SRow.raw (ansiCyan ++ dv ++ ansiReset)
        :: SRow.raw (ansiCyan ++ extractFileName l ++ ansiReset) :: outGo dv f rest
    else if hasPre pIndex l || hasPre pDash3 l || hasPre pPlus3 l then outGo dv f rest
    else if hasPre pAt l then
      let hdr :=
        (let c := cleanHunkHeader l
         if c.isEmpty then ([] : List SRow)
         else [SRow.raw (ansiCyan ++ c ++ ansiReset)])
      let st :=
        (match findHunk l with
         | some x => (x.1, x.2.2.1)
         | none => (1, 1))
      let pr := hunkBodyGo f st.1 st.2 rest
      hdr ++ pr.1 ++ outGo dv f pr.2
    else outGo dv f rest

/-- `formatSideBySide(diffText, terminalWidth)`. -/
def formatSideBySide (t : Str) (tw : Int) : List Str :=
  let lines := splitOnChar ('\n') t
  (outGo (mkDivider tw) lines.length lines).map
    (renderSRow (digitsOldOf lines) (digitsNewOf lines) (leftWOf lines tw) (rightWOf lines tw))

/-- The per-line case analysis of `formatInline`'s `flatMap`. -/
def inlineLine (w : Int) (l : Str) : List Str :=
  if hasPre pDiffGit l then
    [[], ansiCyan ++ mkDivider w ++ ansiReset, ansiCyan ++ extractFileName l ++ ansiReset]
  else if hasPre pAt l then
    (let c := cleanHunkHeader l
     if c.isEmpty then [] else [ansiCyan ++ c ++ ansiReset])
  else if hasPre pDash l then [ansiRed ++ l ++ ansiReset]
  else if hasPre pPlus l then [ansiGreen ++ l ++ ansiReset]
  else [l]

/-- The metadata filter `!/^(---|\+\+\+|index)/.test(l)`. -/
def metaKeep (l : Str) : Bool :=
  !(hasPre pDash3 l || hasPre pPlus3 l || hasPre pIndex l)

/-- The final filter `l !== ""`. -/
def keepNonEmpty (l : Str) : Bool := !l.isEmpty

/-- The filter/flatMap/filter pipeline of `formatInline` applied to a
list of input lines. -/
def inlineCore (w : Int) (ls : List Str) : List Str :=
  ((ls.filter metaKeep).flatMap (inlineLine w)).filter keepNonEmpty

/-- `formatInline(diffText, width)`. -/
def formatInline (t : Str) (w : Int) : List Str :=
  inlineCore w (splitOnChar ('\n') t)

/-- The escape byte. -/
def sgrEsc : Char := '\x1b'

/-- Unanchored search of `/\x1b\[<(\d+);/` over an input chunk,
returning the captured digit string of the button code.  After a
failed start the search advances one character, as a regex engine
does. -/
def findSgr : Str → Option Str
  | [] => none
  | c :: rest =>
    if c == sgrEsc then
      match rest with
      | '[' :: '<' :: r2 =>
        let ds := r2.takeWhile (fun ch => ch.isDigit)
        if ds.isEmpty then findSgr rest
        else
          match r2.dropWhile (fun ch => ch.isDigit) with
          | ';' :: _ => some ds
          | _ => findSgr rest
      | _ => findSgr rest
    else findSgr rest

/-- The `mouseHandler` of the current revision: the SGR match is
consumed first; when the mouse is enabled, button `"64"` scrolls up
and `"65"` scrolls down by `(rows || 24) - 2`; any other matched
button produces no scroll.  `rows` is the already-defaulted terminal
height.  The result is the scroll delta applied to `scrollOffset`, or
`none` when no scroll happens. -/
def mouseDelta000 (enabled : Bool) (rows : Int) (s : Str) : Option Int :=
  match findSgr s with
  | some b =>
    if enabled then
      if b == ['6', '4'] then some (-(rows - 2))
      else if b == ['6', '5'] then some (rows - 2)
      else none
    else none
  | none => none

/-- The `mouseHandler` of the earlier revision (`diff.ts`): returns
early when the mouse is disabled, then scrolls by exactly 3 lines on
buttons `"64"`/`"65"`. -/
def mouseDeltaDiffTs (enabled : Bool) (s : Str) : Option Int :=
  if !enabled then none
  else
    match findSgr s with
    | some b =>
      if b == ['6', '4'] then some (-3)
      else if b == ['6', '5'] then some 3
      else none
    | none => none

/-- The UI events that reach `scrollOffset` before a render, from the
keypress handler and the mouse handler of the current revision. -/
inductive UIEvent where
  | keyUp | keyDown | pageUp | pageDown | wheelUp | wheelDown
  | toggleTree | setSide | setInline | toggleMouse

/-- The mutation each event applies to `scrollOffset` (`rows` is the
defaulted terminal height): arrows/`k`/`j` move one line, page keys
and the wheel move `rows - 2`, the tree toggle resets to 0, and the
layout/mouse toggles leave the offset alone. -/
def applyEvent (e : UIEvent) (off rows : Int) : Int :=
  match e with
  | UIEvent.keyUp => off - 1
  | UIEvent.keyDown => off + 1
  | UIEvent.pageUp => off - (rows - 2)
  | UIEvent.pageDown => off + (rows - 2)
  | UIEvent.wheelUp => off - (rows - 2)
  | UIEvent.wheelDown => off + (rows - 2)
  | UIEvent.toggleTree => 0
  | UIEvent.setSide => off
  | UIEvent.setInline => off
  | UIEvent.toggleMouse => off

/-- The clamp of `render`:
`Math.max(0, Math.min(scrollOffset, Math.max(0, total - avail)))`. -/
def clampOffset (off total avail : Int) : Int :=
  max 0 (min off (max 0 (total - avail)))

/-- The `scrollOffset` after `render` recomputes the current
formatter's output and clamps: `avail` is
`h - 2 - fileTreeHeight`. -/
def renderOffset (sbs : Bool) (t : Str) (w h ftH off : Int) : Int :=
  clampOffset off
    ((if sbs then formatSideBySide t w else formatInline t w).length : Int)
    (h - 2 - ftH)

/-- A value of the nested file-tree mapping: `null` for a file leaf,
an object (modelled as an association list in insertion order) for a
directory. -/
inductive TreeVal where
  | leaf : TreeVal
  | dir : List (Str × TreeVal) → TreeVal

/-- JavaScript property assignment `node[k] = v`: overwrite in place,
append when absent. -/
def updateA (k : Str) (v : TreeVal) : List (Str × TreeVal) → List (Str × TreeVal)
  | [] => [(k, v)]
  | (k2, v2) :: rest =>
    if k2 == k then (k, v) :: rest else (k2, v2) :: updateA k v rest

/-- Property lookup `node[k]`. -/
def lookupA (k : Str) : List (Str × TreeVal) → Option TreeVal
  | [] => none
  | (k2, v2) :: rest => if k2 == k then some v2 else lookupA k rest

/-- Insertion of one split path into the tree: the final segment is
assigned `null` (leaf); an intermediate segment descends into the
existing object, replacing a falsy (`absent`/`null`) entry with a
fresh object — so a later directory overwrites a file of the same
name, and a later file overwrites a directory. -/
def insertParts : List (Str × TreeVal) → List Str → List (Str × TreeVal)
  | node, [] => node
  | node, [p] => updateA p TreeVal.leaf node
  | node, p :: rest =>
    let child :=
      match lookupA p node with
      | some (TreeVal.dir c) => c
      | _ => []
    updateA p (TreeVal.dir (insertParts child rest)) node

/-- The tree-building loop of `renderFileTree`: split each file on
`/` and insert. -/
def buildTree (files : List Str) : List (Str × TreeVal) :=
  files.foldl (fun t f => insertParts t (splitOnChar ('/') f)) []

/-- Lexicographic string order by character code, the default
`Array.prototype.sort` comparator on distinct keys. -/
def strLt : Str → Str → Bool
  | [], [] => false
  | [], _ :: _ => true
  | _ :: _, [] => false
  | a :: as_, b :: bs =>
    if a < b then true else if b < a then false else strLt as_ bs

/-- Insertion step of the key sort. -/
def insertBy (x : Str × TreeVal) : List (Str × TreeVal) → List (Str × TreeVal)
  | [] => [x]
  | y :: rest => if strLt x.1 y.1 then x :: y :: rest else y :: insertBy x rest

/-- `Object.keys(node).sort()` (keys are distinct, so any stable
realization of the comparator gives the same order). -/
def sortEntries : List (Str × TreeVal) → List (Str × TreeVal)
  | [] => []
  | x :: rest => insertBy x (sortEntries rest)

/-- Connector for the last sibling. -/
def connLast : Str := ['└', '─', '─', ' ']

/-- Connector for a non-last sibling. -/
def connMid : Str := ['├', '─', '─', ' ']

/-- Indentation continued under a last sibling. -/
def indentBlank : Str := [' ', ' ', ' ', ' ']

/-- Indentation with the vertical guide of a non-last ancestor. -/
def indentGuide : Str := ['│', ' ', ' ', ' ']

/-- The depth-first `renderNode` walk over the sorted entries of a
node: each entry emits `prefix + connector + key`, a directory then
recurses with the extended indentation (its children re-sorted on
entry), and the walk continues with the remaining siblings.  The fuel
only bounds the recursion; `renderFileTree` supplies more than the
total number of tree nodes, so the walk always completes. -/
def renderSorted : Nat → List (Str × TreeVal) → Str → List Str
  | 0, _, _ => []
  | _ + 1, [], _ => []
  | f + 1, (k, v) :: rest, pre =>
    let isLast := rest.isEmpty
    (pre ++ (if isLast then connLast else connMid) ++ k)
      :: ((match v with
           | TreeVal.leaf => []
           | TreeVal.dir c =>
             renderSorted f (sortEntries c) (pre ++ (if isLast then indentBlank else indentGuide)))
          ++ renderSorted f rest pre)

/-- Fuel for the tree walk: two units per path segment plus one per
file strictly exceeds the number of inserted tree nodes. -/
def treeFuel (files : List Str) : Nat :=
  files.foldl (fun acc f => acc + 2 * (splitOnChar ('/') f).length + 1) 1

/-- `renderFileTree(files)`. -/
def renderFileTree (files : List Str) : List Str :=
  renderSorted (treeFuel files) (sortEntries (buildTree files)) []

/-- The arithmetic progression `s, s+1, ..., s+k-1` of displayed line
numbers. -/
def progFrom : Nat → Nat → List Nat
  | _, 0 => []
  | s, k + 1 => s :: progFrom (s + 1) k

/-- The old line number displayed by a row, when any. -/
def rowOld : SRow → Option Nat
  | SRow.raw _ => none
  | SRow.ctxRow o _ _ => some o
  | SRow.pairRow o _ _ _ => o

/-- The new line number displayed by a row, when any. -/
def rowNew : SRow → Option Nat
  | SRow.raw _ => none
  | SRow.ctxRow _ n _ => some n
  | SRow.pairRow _ _ n _ => n

/-- The sequence of old line numbers displayed by a row list. -/
def oldNums (rows : List SRow) : List Nat := rows.filterMap rowOld

/-- The sequence of new line numbers displayed by a row list. -/
def newNums (rows : List SRow) : List Nat := rows.filterMap rowNew

/-- How many input content lines a row displays: a context row shows
one line (on both sides), a paired row shows one per present side. -/
def rowCells : SRow → Nat
  | SRow.raw _ => 0
  | SRow.ctxRow _ _ _ => 1
  | SRow.pairRow o _ n _ =>
    (if o.isSome then 1 else 0) + (if n.isSome then 1 else 0)

/-- Total content lines displayed by a row list. -/
def sbsCells : List SRow → Nat
  | [] => 0
  | r :: rest => rowCells r + sbsCells rest

/-- The single-chain tree obtained by inserting one split path into an
empty tree. -/
def chainTree : List Str → List (Str × TreeVal)
  | [] => []
  | [p] => [(p, TreeVal.leaf)]
  | p :: rest => [(p, TreeVal.dir (chainTree rest))]

/-- The rendering of a single-chain tree: one row per segment, each a
last sibling, indentation growing by one blank unit per level. -/
def chainRows : Str → List Str → List Str
  | _, [] => []
  | pre, p :: rest => (pre ++ connLast ++ p) :: chainRows (pre ++ indentBlank) rest

/-- Concrete SGR wheel-up report `ESC [ < 6 4 ; 1 ; 1 M`. -/
def sgrSample : Str := ['\x1b', '[', '<', '6', '4', ';', '1', ';', '1', 'M']

/-- Concrete line with no recognized marker or leading character. -/
def sampleHello : Str := ['h', 'e', 'l', 'l', 'o']

/-- Concrete line with no recognized marker or leading character. -/
def sampleWorld : Str := ['w', 'o', 'r', 'l', 'd']

/-- Concrete hunk-range line `@@ -1,3 +2,4 @@`. -/
def sampleHunkLine : Str :=
  ['@', '@', ' ', '-', '1', ',', '3', ' ', '+', '2', ',', '4', ' ', '@', '@']

/-- Concrete hunk body: one context, one removed, one added line. -/
def sampleBody : List Str := [[' ', 'c'], ['-', 'o'], ['+', 'n']]

/-- Concrete removed-run contents for a paired block. -/
def sampleRemoved : List Str := [['o']]

/-- Concrete added-run contents for a paired block. -/
def sampleAdded : List Str := [['n'], ['x']]

theorem hasPre_head_ex {c : Char} {p l : Str} (h : hasPre (c :: p) l = true) :
    ∃ t, l = c :: t ∧ hasPre p t = true := by
  cases l with
  | nil => simp [hasPre] at h
  | cons x xs =>
    rw [hasPre] at h
    simp only [Bool.and_eq_true, beq_iff_eq] at h
    exact ⟨xs, by rw [h.1], h.2⟩

theorem diffGit_not_dash (x : Str) : hasPre pDiffGit ('-' :: x) = false := rfl

theorem diffGit_not_plus (x : Str) : hasPre pDiffGit ('+' :: x) = false := rfl

theorem diffGit_not_space (x : Str) : hasPre pDiffGit (' ' :: x) = false := rfl

theorem at_not_dash (x : Str) : hasPre pAt ('-' :: x) = false := rfl

theorem at_not_plus (x : Str) : hasPre pAt ('+' :: x) = false := rfl

theorem at_not_space (x : Str) : hasPre pAt (' ' :: x) = false := rfl

theorem dash_self (x : Str) : hasPre pDash ('-' :: x) = true := rfl

theorem dash_not_plus (x : Str) : hasPre pDash ('+' :: x) = false := rfl

theorem dash_not_space (x : Str) : hasPre pDash (' ' :: x) = false := rfl

theorem plus_self (x : Str) : hasPre pPlus ('+' :: x) = true := rfl

theorem plus_not_dash (x : Str) : hasPre pPlus ('-' :: x) = false := rfl

theorem plus_not_space (x : Str) : hasPre pPlus (' ' :: x) = false := rfl

theorem space_self (x : Str) : hasPre pSpace (' ' :: x) = true := rfl

theorem space_not_dash (x : Str) : hasPre pSpace ('-' :: x) = false := rfl

theorem space_not_plus (x : Str) : hasPre pSpace ('+' :: x) = false := rfl

theorem index_not_dash (x : Str) : hasPre pIndex ('-' :: x) = false := rfl

theorem index_not_plus (x : Str) : hasPre pIndex ('+' :: x) = false := rfl

theorem index_not_space (x : Str) : hasPre pIndex (' ' :: x) = false := rfl

theorem dash3_not_space (x : Str) : hasPre pDash3 (' ' :: x) = false := rfl

theorem dash3_not_plus (x : Str) : hasPre pDash3 ('+' :: x) = false := rfl

theorem plus3_not_space (x : Str) : hasPre pPlus3 (' ' :: x) = false := rfl

theorem plus3_not_dash (x : Str) : hasPre pPlus3 ('-' :: x) = false := rfl

theorem takeWhile_append_all {p : Str → Bool} {l1 : List Str}
    (h : ∀ x ∈ l1, p x = true) (l2 : List Str) :
    (l1 ++ l2).takeWhile p = l1 ++ l2.takeWhile p := by
  induction l1 with
  | nil => simp
  | cons a l ih =>
    simp only [List.cons_append, List.takeWhile_cons, h a (by simp), if_true]
    rw [ih (fun x hx => h x (by simp [hx]))]

theorem dropWhile_append_all {p : Str → Bool} {l1 : List Str}
    (h : ∀ x ∈ l1, p x = true) (l2 : List Str) :
    (l1 ++ l2).dropWhile p = l2.dropWhile p := by
  induction l1 with
  | nil => simp
  | cons a l ih =>
    simp only [List.cons_append, List.dropWhile_cons, h a (by simp), if_true]
    exact ih (fun x hx => h x (by simp [hx]))

theorem takeWhile_nil_of_head {p : Str → Bool} {l : List Str}
    (h : ∀ r, l.head? = some r → p r = false) : l.takeWhile p = [] := by
  cases l with
  | nil => rfl
  | cons a t => simp [List.takeWhile_cons, h a rfl]

theorem dropWhile_self_of_head {p : Str → Bool} {l : List Str}
    (h : ∀ r, l.head? = some r → p r = false) : l.dropWhile p = l := by
  cases l with
  | nil => rfl
  | cons a t => simp [List.dropWhile_cons, h a rfl]

theorem mem_of_mem_dropWhile {p : Str → Bool} {x : Str} {l : List Str}
    (h : x ∈ l.dropWhile p) : x ∈ l := by
  induction l with
  | nil => simp at h
  | cons a t ih =>
    rw [List.dropWhile_cons] at h
    by_cases hp : p a = true
    · rw [if_pos hp] at h
      exact List.mem_cons_of_mem a (ih h)
    · rw [if_neg hp] at h
      exact h
theorem map_cons_drop (c : Char) (l : List Str) :
    (l.map (fun s => c :: s)).map (fun x => x.drop 1) = l := by
  induction l with
  | nil => rfl
  | cons a t ih => simp only [List.map_cons, List.drop_succ_cons, List.drop_zero, ih]

theorem addedRows_length (a : List Str) : ∀ cn, (addedRows cn a).length = a.length := by
  induction a with
  | nil => intro cn; rfl
  | cons x t ih => intro cn; simp [addedRows, ih]

theorem pairRows_length (d : List Str) :
    ∀ (a : List Str) (co cn : Nat),
      (pairRows co cn d a).length = max d.length a.length := by
  induction d with
  | nil =>
    intro a co cn
    simp [pairRows, addedRows_length, Nat.zero_max]
  | cons dl ds ih =>
    intro a co cn
    cases a with
    | nil =>
      simp only [pairRows, List.length_cons, ih [] (co + 1) cn, List.length_nil,
        Nat.max_zero]
    | cons ar ars =>
      simp only [pairRows, List.length_cons, ih ars (co + 1) (cn + 1),
        Nat.succ_max_succ]

theorem addedRows_get (a : List Str) :
    ∀ (cn j : Nat), j < a.length →
      (addedRows cn a)[j]? = some (SRow.pairRow none [] (some (cn + j)) (a.getD j [])) := by
  induction a with
  | nil => intro cn j h; simp at h
  | cons x t ih =>
    intro cn j h
    cases j with
    | zero => simp [addedRows]
    | succ j =>
      have hj : j < t.length := by simpa using h
      simp only [addedRows, List.getElem?_cons_succ, List.getD_cons_succ]
      rw [ih (cn + 1) j hj]
      have e1 : cn + 1 + j = cn + (j + 1) := by omega
      rw [e1]

theorem pairRows_get (d : List Str) :
    ∀ (a : List Str) (co cn j : Nat), j < max d.length a.length →
      (pairRows co cn d a)[j]? = some (SRow.pairRow
        (if j < d.length then some (co + j) else none) (d.getD j [])
        (if j < a.length then some (cn + j) else none) (a.getD j [])) := by
  induction d with
  | nil =>
    intro a co cn j h
    have hj : j < a.length := by
      rw [List.length_nil, Nat.zero_max] at h
      exact h
    show (addedRows cn a)[j]? = _
    rw [addedRows_get a cn j hj]
    simp [hj, List.getD]
  | cons dl ds ih =>
    intro a co cn j h
    cases a with
    | nil =>
      cases j with
      | zero => simp [pairRows]
      | succ j =>
        have h' : j < max ds.length ([] : List Str).length := by
          rw [List.length_nil, Nat.max_zero] at h ⊢
          rw [List.length_cons] at h
          omega
        simp only [pairRows, List.getElem?_cons_succ, List.getD_cons_succ]
        rw [ih [] (co + 1) cn j h']
        have e1 : co + 1 + j = co + (j + 1) := by omega
        simp [e1, Nat.succ_lt_succ_iff, List.getD]
    | cons ar ars =>
      cases j with
      | zero => simp [pairRows]
      | succ j =>
        have h' : j < max ds.length ars.length := by
          rw [List.length_cons, List.length_cons, Nat.succ_max_succ] at h
          omega
        simp only [pairRows, List.getElem?_cons_succ, List.getD_cons_succ]
        rw [ih ars (co + 1) (cn + 1) j h']
        have e1 : co + 1 + j = co + (j + 1) := by omega
        have e2 : cn + 1 + j = cn + (j + 1) := by omega
        simp [e1, e2, Nat.succ_lt_succ_iff]

/-- C1: within a hunk, a maximal run of removed lines immediately
followed by a maximal run of added lines (maximality encoded by the
next line, when present, starting with neither `-` nor `+`) is
rendered as one paired block of exactly `max` rows: the `j`-th row
pairs the `j`-th removed content with the `j`-th added content, a side
being `none` (blank gutter) with empty content exactly when its run
has no `j`-th line; processing then continues after the block with
the counters advanced by the run lengths.  `renderSRow` turns a
`none` side into a blank gutter and blank padded content. -/
theorem c1_pairing (f co cn : Nat) (d a rest : List Str)
    (hne : 0 < d.length + a.length)
    (hrest : ∀ r, rest.head? = some r → hasPre pDash r = false ∧ hasPre pPlus r = false) :
    (hunkBodyGo (f + 1) co cn
        (d.map (fun s => '-' :: s) ++ (a.map (fun s => '+' :: s) ++ rest))).1
      = pairRows co cn d a
          ++ (hunkBodyGo f (co + d.length) (cn + a.length) rest).1
    ∧ (pairRows co cn d a).length = max d.length a.length
    ∧ (∀ j, j < max d.length a.length →
        (pairRows co cn d a)[j]? = some (SRow.pairRow
          (if j < d.length then some (co + j) else none) (d.getD j [])
          (if j < a.length then some (cn + j) else none) (a.getD j []))) := by
  refine ⟨?_, pairRows_length d a co cn, fun j hj => pairRows_get d a co cn j hj⟩
  have hAllD : ∀ x ∈ d.map (fun s => '-' :: s), hasPre pDash x = true := by
    intro x hx
    obtain ⟨s, -, rfl⟩ := List.mem_map.mp hx
    exact dash_self s
  have hAllA : ∀ x ∈ a.map (fun s => '+' :: s), hasPre pPlus x = true := by
    intro x hx
    obtain ⟨s, -, rfl⟩ := List.mem_map.mp hx
    exact plus_self s
  have hTairest : (a.map (fun s => '+' :: s) ++ rest).takeWhile (fun x => hasPre pDash x) = [] := by
    cases a with
    | nil =>
      simp only [List.map_nil, List.nil_append]
      exact takeWhile_nil_of_head (fun r hr => (hrest r hr).1)
    | cons a0 as_ =>
      simp only [List.map_cons, List.cons_append]
      rw [List.takeWhile_cons, dash_not_plus a0, if_neg (by simp)]
  have hDairest : (a.map (fun s => '+' :: s) ++ rest).dropWhile (fun x => hasPre pDash x)
      = a.map (fun s => '+' :: s) ++ rest := by
    cases a with
    | nil =>
      simp only [List.map_nil, List.nil_append]
      exact dropWhile_self_of_head (fun r hr => (hrest r hr).1)
    | cons a0 as_ =>
      simp only [List.map_cons, List.cons_append]
      rw [List.dropWhile_cons, dash_not_plus a0, if_neg (by simp)]
  have hT1 : (d.map (fun s => '-' :: s) ++ (a.map (fun s => '+' :: s) ++ rest)).takeWhile
      (fun x => hasPre pDash x) = d.map (fun s => '-' :: s) := by
    rw [takeWhile_append_all hAllD, hTairest, List.append_nil]
  have hD1 : (d.map (fun s => '-' :: s) ++ (a.map (fun s => '+' :: s) ++ rest)).dropWhile
      (fun x => hasPre pDash x) = a.map (fun s => '+' :: s) ++ rest := by
    rw [dropWhile_append_all hAllD, hDairest]
  have hT2 : (a.map (fun s => '+' :: s) ++ rest).takeWhile (fun x => hasPre pPlus x)
      = a.map (fun s => '+' :: s) := by
    rw [takeWhile_append_all hAllA, takeWhile_nil_of_head (fun r hr => (hrest r hr).2),
      List.append_nil]
  have hD2 : (a.map (fun s => '+' :: s) ++ rest).dropWhile (fun x => hasPre pPlus x) = rest := by
    rw [dropWhile_append_all hAllA]
    exact dropWhile_self_of_head (fun r hr => (hrest r hr).2)
  cases d with
  | nil =>
    cases a with
    | nil => simp at hne
    | cons a0 as_ =>
      simp only [List.map_nil, List.nil_append, List.map_cons,
        List.cons_append] at hT1 hD1 hT2 hD2 ⊢
      simp only [hunkBodyGo, diffGit_not_plus, at_not_plus, space_not_plus, dash_not_plus,
        plus_self, Bool.or_self, Bool.or_true, Bool.false_eq_true, if_false, if_true]
      rw [hT1, hD1, hT2, hD2]
      simp only [List.map_nil, List.map_cons, List.drop_succ_cons, List.drop_zero,
        map_cons_drop, List.length_nil, Nat.add_zero, List.length_cons, List.length_map]
  | cons d0 ds =>
    simp only [List.map_cons, List.cons_append] at hT1 hD1 ⊢
    simp only [hunkBodyGo, diffGit_not_dash, at_not_dash, space_not_dash, dash_self,
      Bool.or_self, Bool.true_or, Bool.or_true, Bool.false_eq_true, if_false, if_true]
    rw [hT1, hD1, hT2, hD2]
    simp only [List.map_cons, List.drop_succ_cons, List.drop_zero, map_cons_drop,
      List.length_cons, List.length_map]

theorem c1_pairing_witness :
    (0 < sampleRemoved.length + sampleAdded.length)
      ∧ ((hunkBodyGo (0 + 1) 1 1
            (sampleRemoved.map (fun s => '-' :: s)
              ++ (sampleAdded.map (fun s => '+' :: s) ++ ([] : List Str)))).1
          = pairRows 1 1 sampleRemoved sampleAdded
              ++ (hunkBodyGo 0 (1 + sampleRemoved.length) (1 + sampleAdded.length) []).1
        ∧ (pairRows 1 1 sampleRemoved sampleAdded).length
            = max sampleRemoved.length sampleAdded.length
        ∧ (∀ j, j < max sampleRemoved.length sampleAdded.length →
            (pairRows 1 1 sampleRemoved sampleAdded)[j]? = some (SRow.pairRow
              (if j < sampleRemoved.length then some (1 + j) else none)
              (sampleRemoved.getD j [])
              (if j < sampleAdded.length then some (1 + j) else none)
              (sampleAdded.getD j [])))) :=
  ⟨by decide, c1_pairing 0 1 1 sampleRemoved sampleAdded []
    (by decide) (fun r h => absurd h (by simp))⟩

theorem toDigitsCore_length_le (b : Nat) :
    ∀ (f n : Nat) (ds : List Char), ds.length ≤ (Nat.toDigitsCore b f n ds).length := by
  intro f
  induction f with
  | zero => intro n ds; simp [Nat.toDigitsCore]
  | succ f ih =>
    intro n ds
    rw [Nat.toDigitsCore]
    split
    · simp
    · exact le_trans (by simp) (ih _ _)

theorem natStr_length_pos (n : Nat) : 1 ≤ (natStr n).length := by
  have h : natStr n = Nat.toDigitsCore 10 (n + 1) n [] := rfl
  rw [h, Nat.toDigitsCore]
  split
  · simp
  · exact le_trans (by simp) (toDigitsCore_length_le 10 n (n / 10) _)

theorem ite_zero_eq_max (x : Nat) : (if x == 0 then 1 else x) = Nat.max 1 x := by
  rcases x with _ | m
  · simp
  · simp [Nat.max_def]

/-- C2: for every diff text and every terminal width at or above the
minimum usable threshold, each gutter width is the decimal digit count
(minimum 1) of the maximum reachable line number (start + count over
all hunk-range markers), the left content column is the floor half of
the width left after gutters and fixed overhead, the right column
takes the remainder, and left + right column widths plus the fixed
separator width (3) plus both gutter widths plus the fixed spacing (4)
exactly equal the supplied terminal width. -/
theorem c2_widths (lines : List Str) (tw : Int)
    (h : (digitsOldOf lines : Int) + (digitsNewOf lines : Int) + 7 ≤ tw) :
    leftWOf lines tw + rightWOf lines tw + 3 + (digitsOldOf lines : Int)
        + (digitsNewOf lines : Int) + 4 = tw
      ∧ digitsOldOf lines = (natStr (Nat.max 1 (maxOldNew lines).1)).length
      ∧ digitsNewOf lines = (natStr (Nat.max 1 (maxOldNew lines).2)).length
      ∧ 1 ≤ digitsOldOf lines ∧ 1 ≤ digitsNewOf lines
      ∧ 0 ≤ leftWOf lines tw ∧ leftWOf lines tw ≤ rightWOf lines tw
      ∧ rightWOf lines tw ≤ leftWOf lines tw + 1 := by
  have hc : (0 : Int) ≤ contentWOf lines tw := by
    simp only [contentWOf]
    omega
  have hL : leftWOf lines tw = contentWOf lines tw / 2 :=
    Int.fdiv_eq_ediv _ (by norm_num)
  refine ⟨?_, ?_, ?_, ?_, ?_, ?_, ?_, ?_⟩
  · simp only [rightWOf, contentWOf]
    omega
  · simp only [digitsOldOf, ite_zero_eq_max]
  · simp only [digitsNewOf, ite_zero_eq_max]
  · exact natStr_length_pos _
  · exact natStr_length_pos _
  · rw [hL]
    omega
  · simp only [rightWOf]
    rw [hL]
    omega
  · simp only [rightWOf]
    rw [hL]
    omega

theorem c2_widths_witness :
    ((digitsOldOf [sampleHunkLine] : Int) + (digitsNewOf [sampleHunkLine] : Int) + 7 ≤ 80)
      ∧ leftWOf [sampleHunkLine] 80 + rightWOf [sampleHunkLine] 80 + 3
          + (digitsOldOf [sampleHunkLine] : Int) + (digitsNewOf [sampleHunkLine] : Int) + 4 = 80 :=
  ⟨by decide, (c2_widths [sampleHunkLine] 80 (by decide)).1⟩

/-- C4 (code bug): the claim and the current revision's own README
say the wheel scrolls exactly 3 lines per notch, and the earlier
revision (`diff.ts`) does scroll 3; but the current revision
(`part_000`) scrolls by `rows - 2` — a full page — per notch: on a
24-row terminal the wheel-up report `ESC[<64;1;1M` moves the offset
by 22 lines, not 3. -/
theorem c4_mouse_eval :
    mouseDelta000 true 24 sgrSample = some (-22)
      ∧ mouseDeltaDiffTs true sgrSample = some (-3) := by decide

/-- C5 counterexample: the decoder holds no partial-input buffer, so
splitting the recognized SGR wheel report `ESC[<64;1;1M` after its
third byte yields no event in either read, although the whole chunk
yields the single scroll-up event — refuting the claim that every
split of a recognized sequence emits the same single event. -/
theorem c5_counterexample :
    mouseDeltaDiffTs true sgrSample = some (-3)
      ∧ mouseDeltaDiffTs true (sgrSample.take 3) = none
      ∧ mouseDeltaDiffTs true (sgrSample.drop 3) = none := by decide

/-- C5 (amended): each chunk is matched independently; a split of the
wheel report emits the whole's event only when the first fragment
already contains the complete `ESC[<digits;` portion (the regex needs
nothing beyond the first semicolon), and the second fragment never
matches; no prefix is buffered for the next read. -/
theorem c5_amended : ∀ k : Nat, k < 10 → 1 ≤ k →
    findSgr (sgrSample.take k) = (if k ≤ 5 then none else some ['6', '4'])
      ∧ findSgr (sgrSample.drop k) = none := by decide

theorem c5_amended_witness :
    ((3 : Nat) < 10) ∧ (1 ≤ (3 : Nat))
      ∧ (findSgr (sgrSample.take 3) = (if (3 : Nat) ≤ 5 then none else some ['6', '4'])
         ∧ findSgr (sgrSample.drop 3) = none) :=
  ⟨by decide, by decide, c5_amended 3 (by decide) (by decide)⟩

/-- C6 counterexample: on the raw diff text `hello` — a line the
parser classifies as context — the inline formatter emits one content
line but the side-by-side formatter emits no row at all, so the
side-by-side formatter silently drops a content line and the two
formatters' content-line counts differ with no removed/added padding
involved. -/
theorem c6_counterexample :
    (formatInline sampleHello 10).length = 1
      ∧ formatSideBySide sampleHello 80 = [] := by decide

/-- C7 counterexample: the line `world` matches no file-header,
metadata, or hunk-range marker and has no recognized leading
character; the claim says both formatters render it verbatim, but the
side-by-side formatter drops it entirely (while the inline formatter
does render it verbatim). -/
theorem c7_counterexample :
    formatSideBySide sampleWorld 80 = []
      ∧ formatInline sampleWorld 5 = [sampleWorld] := by decide

/-- C8: after any scroll, layout or toggle event followed by its
render, the re-clamped `scrollOffset` satisfies
`0 ≤ scrollOffset ≤ maxScroll` where
`maxScroll = max 0 (totalDisplayLines - visibleHeight)` is recomputed
from the current formatter's output and the terminal dimensions;
out-of-range assignments are clamped, never rejected. -/
theorem c8_clamp (e : UIEvent) (sbs : Bool) (t : Str) (w h ftH off rows : Int) :
    0 ≤ renderOffset sbs t w h ftH (applyEvent e off rows)
      ∧ renderOffset sbs t w h ftH (applyEvent e off rows)
        ≤ max 0 (((if sbs then formatSideBySide t w else formatInline t w).length : Int)
            - (h - 2 - ftH)) := by
  unfold renderOffset clampOffset
  constructor
  · exact le_max_left 0 _
  · exact max_le (le_max_left 0 _) (min_le_right _ _)

/-- C9 counterexample: on the changed-file list `a/b`, `a`, the
file-tree builder renders only the single node `a`: the file `a`
overwrote the directory `a`, and the segment `b` of path `a/b` has no
node — refuting the claim that a file and a directory sharing a name
at the same level are both represented. -/
theorem c9_counterexample :
    renderFileTree [['a', '/', 'b'], ['a']] = [['└', '─', '─', ' ', 'a']] := by decide

/-- C10: every display line returned by the inline formatter is
non-empty — the formatter's final step filters out empty strings — so
no blank separator line appears between file sections in its
output. -/
theorem c10_nonempty (t : Str) (w : Int) (l : Str) (hm : l ∈ formatInline t w) :
    l ≠ [] := by
  unfold formatInline inlineCore at hm
  have h2 := (List.mem_filter.mp hm).2
  intro hl
  subst hl
  simp [keepNonEmpty] at h2

theorem c10_nonempty_witness :
    (['q'] ∈ formatInline ['q'] 1) ∧ (['q'] : Str) ≠ [] :=
  ⟨by decide, c10_nonempty ['q'] 1 ['q'] (by decide)⟩

theorem hunkBodyGo_stop (f co cn : Nat) (l : Str) (rest : List Str)
    (h : (hasPre pDiffGit l || hasPre pAt l) = true) :
    hunkBodyGo (f + 1) co cn (l :: rest) = ([], l :: rest) := by
  simp [hunkBodyGo, h]

theorem hunkBodyGo_ctx (f co cn : Nat) (l : Str) (rest : List Str)
    (h1 : (hasPre pDiffGit l || hasPre pAt l) = false)
    (h2 : hasPre pSpace l = true) :
    hunkBodyGo (f + 1) co cn (l :: rest)
      = (SRow.ctxRow co cn (l.drop 1) :: (hunkBodyGo f (co + 1) (cn + 1) rest).1,
         (hunkBodyGo f (co + 1) (cn + 1) rest).2) := by
  simp [hunkBodyGo, h1, h2]

theorem hunkBodyGo_block (f co cn : Nat) (l : Str) (rest : List Str)
    (h1 : (hasPre pDiffGit l || hasPre pAt l) = false)
    (h2 : hasPre pSpace l = false)
    (h3 : (hasPre pDash l || hasPre pPlus l) = true) :
    hunkBodyGo (f + 1) co cn (l :: rest)
      = (pairRows co cn
            (((l :: rest).takeWhile (fun x => hasPre pDash x)).map (fun x => x.drop 1))
            ((((l :: rest).dropWhile (fun x => hasPre pDash x)).takeWhile
                (fun x => hasPre pPlus x)).map (fun x => x.drop 1))
          ++ (hunkBodyGo f
              (co + ((l :: rest).takeWhile (fun x => hasPre pDash x)).length)
              (cn + (((l :: rest).dropWhile (fun x => hasPre pDash x)).takeWhile
                  (fun x => hasPre pPlus x)).length)
              (((l :: rest).dropWhile (fun x => hasPre pDash x)).dropWhile
                (fun x => hasPre pPlus x))).1,
         (hunkBodyGo f
              (co + ((l :: rest).takeWhile (fun x => hasPre pDash x)).length)
              (cn + (((l :: rest).dropWhile (fun x => hasPre pDash x)).takeWhile
                  (fun x => hasPre pPlus x)).length)
              (((l :: rest).dropWhile (fun x => hasPre pDash x)).dropWhile
                (fun x => hasPre pPlus x))).2) := by
  simp [hunkBodyGo, h1, h2, h3]

theorem hunkBodyGo_skip (f co cn : Nat) (l : Str) (rest : List Str)
    (h1 : (hasPre pDiffGit l || hasPre pAt l) = false)
    (h2 : hasPre pSpace l = false)
    (h3 : (hasPre pDash l || hasPre pPlus l) = false) :
    hunkBodyGo (f + 1) co cn (l :: rest) = hunkBodyGo f co cn rest := by
  simp [hunkBodyGo, h1, h2, h3]

theorem progFrom_append (k : Nat) : ∀ (s m : Nat),
    progFrom s k ++ progFrom (s + k) m = progFrom s (k + m) := by
  induction k with
  | zero =>
    intro s m
    simp [progFrom]
  | succ k ih =>
    intro s m
    have e1 : s + (k + 1) = s + 1 + k := by omega
    have e2 : k + 1 + m = k + m + 1 := by omega
    rw [e1, e2]
    simp only [progFrom, List.cons_append]
    rw [ih (s + 1) m]

theorem oldNums_addedRows (a : List Str) : ∀ cn, oldNums (addedRows cn a) = [] := by
  induction a with
  | nil => intro cn; rfl
  | cons x t ih =>
    intro cn
    simp only [addedRows, oldNums, List.filterMap_cons, rowOld]
    exact ih (cn + 1)

theorem newNums_addedRows (a : List Str) :
    ∀ cn, newNums (addedRows cn a) = progFrom cn a.length := by
  induction a with
  | nil => intro cn; rfl
  | cons x t ih =>
    intro cn
    simp only [addedRows, newNums, List.filterMap_cons, rowNew, List.length_cons, progFrom]
    rw [show List.filterMap rowNew (addedRows (cn + 1) t) = progFrom (cn + 1) t.length
      from ih (cn + 1)]

theorem oldNums_pairRows (d : List Str) :
    ∀ (a : List Str) (co cn : Nat), oldNums (pairRows co cn d a) = progFrom co d.length := by
  induction d with
  | nil =>
    intro a co cn
    show oldNums (addedRows cn a) = progFrom co 0
    rw [oldNums_addedRows a cn]
    rfl
  | cons dl ds ih =>
    intro a co cn
    cases a with
    | nil =>
      simp only [pairRows, oldNums, List.filterMap_cons, rowOld, List.length_cons, progFrom]
      rw [show List.filterMap rowOld (pairRows (co + 1) cn ds []) = progFrom (co + 1) ds.length
        from ih [] (co + 1) cn]
    | cons ar ars =>
      simp only [pairRows, oldNums, List.filterMap_cons, rowOld, List.length_cons, progFrom]
      rw [show List.filterMap rowOld (pairRows (co + 1) (cn + 1) ds ars)
          = progFrom (co + 1) ds.length from ih ars (co + 1) (cn + 1)]

theorem newNums_pairRows (d : List Str) :
    ∀ (a : List Str) (co cn : Nat), newNums (pairRows co cn d a) = progFrom cn a.length := by
  induction d with
  | nil =>
    intro a co cn
    exact newNums_addedRows a cn
  | cons dl ds ih =>
    intro a co cn
    cases a with
    | nil =>
      simp only [pairRows, newNums, List.filterMap_cons, rowNew, List.length_nil, progFrom]
      rw [show List.filterMap rowNew (pairRows (co + 1) cn ds []) = progFrom cn 0
        from ih [] (co + 1) cn]
      rfl
    | cons ar ars =>
      simp only [pairRows, newNums, List.filterMap_cons, rowNew, List.length_cons, progFrom]
      rw [show List.filterMap rowNew (pairRows (co + 1) (cn + 1) ds ars)
          = progFrom (cn + 1) ars.length from ih ars (co + 1) (cn + 1)]

/-- C3: in the side-by-side formatter, the old line numbers displayed
within a hunk body form the contiguous progression starting exactly at
the old start value the hunk header declared (which `outGo` passes
in), and likewise the new numbers from the declared new start: so both
start at the declared values on the first row that displays them and
strictly increase by one per displayed number.  By construction of
the rows, a context row carries both numbers, a removed side only an
old number, and an added side only a new number, which is exactly the
consumption rule of the claim.  The inline formatter displays no line
numbers, so the claim constrains it vacuously. -/
theorem c3_line_numbers (f : Nat) : ∀ (co cn : Nat) (ls : List Str),
    ∃ k m, oldNums (hunkBodyGo f co cn ls).1 = progFrom co k
      ∧ newNums (hunkBodyGo f co cn ls).1 = progFrom cn m := by
  induction f with
  | zero => intro co cn ls; exact ⟨0, 0, rfl, rfl⟩
  | succ f ih =>
    intro co cn ls
    cases ls with
    | nil => exact ⟨0, 0, rfl, rfl⟩
    | cons l rest =>
      by_cases h1 : (hasPre pDiffGit l || hasPre pAt l) = true
      · rw [hunkBodyGo_stop _ _ _ _ _ h1]
        exact ⟨0, 0, rfl, rfl⟩
      · rw [Bool.not_eq_true] at h1
        by_cases h2 : hasPre pSpace l = true
        · rw [hunkBodyGo_ctx _ _ _ _ _ h1 h2]
          obtain ⟨k, m, hk, hm⟩ := ih (co + 1) (cn + 1) rest
          refine ⟨k + 1, m + 1, ?_, ?_⟩
          · simp only [oldNums, List.filterMap_cons, rowOld, progFrom]
            rw [show List.filterMap rowOld (hunkBodyGo f (co + 1) (cn + 1) rest).1
                = progFrom (co + 1) k from hk]
          · simp only [newNums, List.filterMap_cons, rowNew, progFrom]
            rw [show List.filterMap rowNew (hunkBodyGo f (co + 1) (cn + 1) rest).1
                = progFrom (cn + 1) m from hm]
        · rw [Bool.not_eq_true] at h2
          by_cases h3 : (hasPre pDash l || hasPre pPlus l) = true
          · rw [hunkBodyGo_block _ _ _ _ _ h1 h2 h3]
            obtain ⟨k, m, hk, hm⟩ := ih
              (co + ((l :: rest).takeWhile (fun x => hasPre pDash x)).length)
              (cn + (((l :: rest).dropWhile (fun x => hasPre pDash x)).takeWhile
                  (fun x => hasPre pPlus x)).length)
              (((l :: rest).dropWhile (fun x => hasPre pDash x)).dropWhile
                (fun x => hasPre pPlus x))
            refine ⟨((l :: rest).takeWhile (fun x => hasPre pDash x)).length + k,
              (((l :: rest).dropWhile (fun x => hasPre pDash x)).takeWhile
                  (fun x => hasPre pPlus x)).length + m, ?_, ?_⟩
            · simp only [oldNums, List.filterMap_append]
              rw [show List.filterMap rowOld (pairRows co cn
                    (((l :: rest).takeWhile (fun x => hasPre pDash x)).map (fun x => x.drop 1))
                    ((((l :: rest).dropWhile (fun x => hasPre pDash x)).takeWhile
                        (fun x => hasPre pPlus x)).map (fun x => x.drop 1)))
                  = progFrom co (((l :: rest).takeWhile (fun x => hasPre pDash x)).map
                      (fun x => x.drop 1)).length from oldNums_pairRows _ _ co cn]
              rw [List.length_map]
              rw [show List.filterMap rowOld (hunkBodyGo f
                    (co + ((l :: rest).takeWhile (fun x => hasPre pDash x)).length)
                    (cn + (((l :: rest).dropWhile (fun x => hasPre pDash x)).takeWhile
                        (fun x => hasPre pPlus x)).length)
                    (((l :: rest).dropWhile (fun x => hasPre pDash x)).dropWhile
                      (fun x => hasPre pPlus x))).1
                  = progFrom (co + ((l :: rest).takeWhile (fun x => hasPre pDash x)).length) k
                from hk]
              exact progFrom_append _ co k
            · simp only [newNums, List.filterMap_append]
              rw [show List.filterMap rowNew (pairRows co cn
                    (((l :: rest).takeWhile (fun x => hasPre pDash x)).map (fun x => x.drop 1))
                    ((((l :: rest).dropWhile (fun x => hasPre pDash x)).takeWhile
                        (fun x => hasPre pPlus x)).map (fun x => x.drop 1)))
                  = progFrom cn ((((l :: rest).dropWhile (fun x => hasPre pDash x)).takeWhile
                      (fun x => hasPre pPlus x)).map (fun x => x.drop 1)).length
                from newNums_pairRows _ _ co cn]
              rw [List.length_map]
              rw [show List.filterMap rowNew (hunkBodyGo f
                    (co + ((l :: rest).takeWhile (fun x => hasPre pDash x)).length)
                    (cn + (((l :: rest).dropWhile (fun x => hasPre pDash x)).takeWhile
                        (fun x => hasPre pPlus x)).length)
                    (((l :: rest).dropWhile (fun x => hasPre pDash x)).dropWhile
                      (fun x => hasPre pPlus x))).1
                  = progFrom (cn + (((l :: rest).dropWhile (fun x => hasPre pDash x)).takeWhile
                      (fun x => hasPre pPlus x)).length) m
                from hm]
              exact progFrom_append _ cn m
          · rw [Bool.not_eq_true] at h3
            rw [hunkBodyGo_skip _ _ _ _ _ h1 h2 h3]
            exact ih co cn rest

theorem rowCells_some_some (o n : Nat) (dl ar : Str) :
    rowCells (SRow.pairRow (some o) dl (some n) ar) = 2 := rfl

theorem rowCells_some_none (o : Nat) (dl ar : Str) :
    rowCells (SRow.pairRow (some o) dl none ar) = 1 := rfl

theorem rowCells_none_some (n : Nat) (dl ar : Str) :
    rowCells (SRow.pairRow none dl (some n) ar) = 1 := rfl

theorem sbsCells_append (r1 r2 : List SRow) :
    sbsCells (r1 ++ r2) = sbsCells r1 + sbsCells r2 := by
  induction r1 with
  | nil => simp [sbsCells]
  | cons r rs ih =>
    show rowCells r + sbsCells (rs ++ r2) = rowCells r + sbsCells rs + sbsCells r2
    rw [ih]
    omega

theorem cells_addedRows (a : List Str) : ∀ cn, sbsCells (addedRows cn a) = a.length := by
  induction a with
  | nil => intro cn; rfl
  | cons x t ih =>
    intro cn
    simp only [addedRows, sbsCells, rowCells_none_some, List.length_cons]
    rw [ih (cn + 1)]
    omega

theorem cells_pairRows (d : List Str) :
    ∀ (a : List Str) (co cn : Nat), sbsCells (pairRows co cn d a) = d.length + a.length := by
  induction d with
  | nil =>
    intro a co cn
    rw [show pairRows co cn [] a = addedRows cn a from rfl, cells_addedRows a cn]
    simp
  | cons dl ds ih =>
    intro a co cn
    cases a with
    | nil =>
      simp only [pairRows, sbsCells, rowCells_some_none]
      rw [ih [] (co + 1) cn]
      simp only [List.length_cons, List.length_nil]
      omega
    | cons ar ars =>
      simp only [pairRows, sbsCells, rowCells_some_some]
      rw [ih ars (co + 1) (cn + 1)]
      simp only [List.length_cons]
      omega

theorem c6_sbs (f : Nat) : ∀ (co cn : Nat) (body : List Str),
    body.length ≤ f →
    (∀ l ∈ body, hasPre pSpace l = true ∨ hasPre pDash l = true ∨ hasPre pPlus l = true) →
    sbsCells (hunkBodyGo f co cn body).1 = body.length := by
  induction f with
  | zero =>
    intro co cn body hlen hmem
    have hb : body = [] := List.length_eq_zero.mp (Nat.le_zero.mp hlen)
    subst hb
    rfl
  | succ f ih =>
    intro co cn body hlen hmem
    cases body with
    | nil => rfl
    | cons l rest =>
      simp only [List.length_cons] at hlen
      rcases hmem l (by simp) with hsp | hda | hpl
      · obtain ⟨t, rfl, -⟩ := hasPre_head_ex hsp
        rw [hunkBodyGo_ctx f co cn (' ' :: t) rest rfl rfl]
        simp only [sbsCells, rowCells, List.length_cons]
        rw [ih (co + 1) (cn + 1) rest (by omega) (fun x hx => hmem x (by simp [hx]))]
        omega
      · obtain ⟨t, rfl, -⟩ := hasPre_head_ex hda
        rw [hunkBodyGo_block f co cn ('-' :: t) rest rfl rfl rfl]
        rw [sbsCells_append, cells_pairRows]
        simp only [List.takeWhile_cons, List.dropWhile_cons, dash_self,
          eq_self_iff_true, if_true, List.length_map, List.length_cons]
        have e1 := congrArg List.length
          (List.takeWhile_append_dropWhile (fun x => hasPre pDash x) rest)
        rw [List.length_append] at e1
        have e2 := congrArg List.length
          (List.takeWhile_append_dropWhile (fun x => hasPre pPlus x)
            (rest.dropWhile (fun x => hasPre pDash x)))
        rw [List.length_append] at e2
        have hm2 : ∀ x ∈ (rest.dropWhile (fun x => hasPre pDash x)).dropWhile
            (fun x => hasPre pPlus x),
            hasPre pSpace x = true ∨ hasPre pDash x = true ∨ hasPre pPlus x = true := by
          intro x hx
          exact hmem x (by
            simp only [List.mem_cons]
            exact Or.inr (mem_of_mem_dropWhile (mem_of_mem_dropWhile hx)))
        rw [ih _ _ _ (by omega) hm2]
        omega
      · obtain ⟨t, rfl, -⟩ := hasPre_head_ex hpl
        rw [hunkBodyGo_block f co cn ('+' :: t) rest rfl rfl rfl]
        rw [sbsCells_append, cells_pairRows]
        simp only [List.takeWhile_cons, List.dropWhile_cons, dash_not_plus, plus_self,
          Bool.false_eq_true, if_false, eq_self_iff_true, if_true, List.length_map,
          List.length_cons, List.length_nil]
        have e2 := congrArg List.length
          (List.takeWhile_append_dropWhile (fun x => hasPre pPlus x) rest)
        rw [List.length_append] at e2
        have hm2 : ∀ x ∈ rest.dropWhile (fun x => hasPre pPlus x),
            hasPre pSpace x = true ∨ hasPre pDash x = true ∨ hasPre pPlus x = true := by
          intro x hx
          exact hmem x (by
            simp only [List.mem_cons]
            exact Or.inr (mem_of_mem_dropWhile hx))
        rw [ih _ _ _ (by omega) hm2]
        omega

theorem c6_inline (w : Int) (body : List Str)
    (hmem : ∀ l ∈ body,
      (hasPre pSpace l = true ∨ hasPre pDash l = true ∨ hasPre pPlus l = true)
        ∧ hasPre pDash3 l = false ∧ hasPre pPlus3 l = false) :
    (inlineCore w body).length = body.length := by
  induction body with
  | nil => rfl
  | cons l rest ih =>
    obtain ⟨hcls, hd3, hp3⟩ := hmem l (by simp)
    have hkeep : metaKeep l = true := by
      rcases hcls with h | h | h <;> obtain ⟨t, rfl, -⟩ := hasPre_head_ex h <;>
        simp [metaKeep, hd3, hp3, index_not_space, index_not_dash, index_not_plus]
    have hone : ((inlineLine w l).filter keepNonEmpty).length = 1 := by
      rcases hcls with h | h | h <;> obtain ⟨t, rfl, -⟩ := hasPre_head_ex h <;> rfl
    simp only [inlineCore, List.filter_cons, hkeep, if_pos, List.flatMap_cons,
      List.filter_append, List.length_append]
    rw [show (((rest.filter metaKeep).flatMap (inlineLine w)).filter keepNonEmpty).length
        = rest.length from ih (fun x hx => hmem x (by simp [hx]))]
    rw [hone]
    simp only [List.length_cons]
    omega

/-- C6 (amended): both formatters drop `index`/`---`/`+++` metadata
lines, but they do not preserve every other line: the inline formatter
drops lines that render empty and the side-by-side formatter drops any
line that is not a file header, hunk marker, or a hunk-body line
beginning with space, `-` or `+`.  For hunk bodies whose lines all
begin with space, `-` or `+` and do not collide with the `---`/`+++`
metadata markers, no content line is dropped: the side-by-side rows
display exactly one content cell per input line (a context row showing
its line on both sides counts once, a paired row counts each present
side) and the inline formatter emits exactly one line per input line,
so the counts agree up to the positional padding of unmatched
removed/added runs. -/
theorem c6_amended (w : Int) (f co cn : Nat) (body : List Str)
    (hlen : body.length ≤ f)
    (hmem : ∀ l ∈ body,
      (hasPre pSpace l = true ∨ hasPre pDash l = true ∨ hasPre pPlus l = true)
        ∧ hasPre pDash3 l = false ∧ hasPre pPlus3 l = false) :
    sbsCells (hunkBodyGo f co cn body).1 = body.length
      ∧ (inlineCore w body).length = body.length :=
  ⟨c6_sbs f co cn body hlen (fun l hl => (hmem l hl).1), c6_inline w body hmem⟩

theorem c6_amended_witness :
    (sampleBody.length ≤ 3)
      ∧ (∀ l ∈ sampleBody,
          (hasPre pSpace l = true ∨ hasPre pDash l = true ∨ hasPre pPlus l = true)
            ∧ hasPre pDash3 l = false ∧ hasPre pPlus3 l = false)
      ∧ (sbsCells (hunkBodyGo 3 1 1 sampleBody).1 = sampleBody.length
         ∧ (inlineCore 9 sampleBody).length = sampleBody.length) :=
  ⟨by decide, by decide, c6_amended 9 3 1 1 sampleBody (by decide) (by decide)⟩

theorem splitOnChar_no_sep {c : Char} {l : Str} (h : c ∉ l) : splitOnChar c l = [l] := by
  induction l with
  | nil => rfl
  | cons x xs ih =>
    have hxs : c ∉ xs := fun hc => h (List.mem_cons_of_mem x hc)
    have hx : (x == c) = false := by
      simp only [beq_eq_false_iff_ne]
      intro e
      exact h (by simp [e])
    simp only [splitOnChar, ih hxs, hx, Bool.false_eq_true, if_false]

theorem outGo_drop (dv : Str) (f : Nat) : ∀ (ls : List Str),
    (∀ l ∈ ls, hasPre pDiffGit l = false ∧ hasPre pIndex l = false
      ∧ hasPre pDash3 l = false ∧ hasPre pPlus3 l = false ∧ hasPre pAt l = false) →
    outGo dv f ls = [] := by
  induction f with
  | zero => intro ls h; rfl
  | succ f ih =>
    intro ls h
    cases ls with
    | nil => rfl
    | cons l rest =>
      obtain ⟨hg, hi, hd, hp, ha⟩ := h l (by simp)
      simp only [outGo, hg, hi, hd, hp, ha, Bool.or_self, Bool.false_eq_true, if_false]
      exact ih rest (fun x hx => h x (by simp [hx]))

/-- C7 (amended): neither formatter can fail, but only the inline
formatter renders an unrecognized non-empty line verbatim and
unstyled; the side-by-side formatter silently drops every line that
matches no file-header, metadata, or hunk-range marker (its hunk-body
loop additionally drops unrecognized lines inside hunks rather than
rendering them). -/
theorem c7_amended :
    (∀ (w : Int) (l : Str), l ≠ [] → ('\n') ∉ l →
      hasPre pDash3 l = false → hasPre pPlus3 l = false → hasPre pIndex l = false →
      hasPre pDiffGit l = false → hasPre pAt l = false →
      hasPre pDash l = false → hasPre pPlus l = false →
      formatInline l w = [l])
    ∧ (∀ (dv : Str) (f : Nat) (ls : List Str),
        (∀ l ∈ ls, hasPre pDiffGit l = false ∧ hasPre pIndex l = false
          ∧ hasPre pDash3 l = false ∧ hasPre pPlus3 l = false ∧ hasPre pAt l = false) →
        outGo dv f ls = []) := by
  constructor
  · intro w l hne hnl h1 h2 h3 h4 h5 h6 h7
    have hkeep : metaKeep l = true := by simp [metaKeep, h1, h2, h3]
    have hline : inlineLine w l = [l] := by
      simp [inlineLine, h4, h5, h6, h7]
    have hkne : keepNonEmpty l = true := by
      cases l with
      | nil => exact absurd rfl hne
      | cons x xs => rfl
    unfold formatInline
    rw [splitOnChar_no_sep hnl]
    unfold inlineCore
    simp only [List.filter_cons, hkeep, if_pos, List.filter_nil, List.flatMap_cons,
      List.flatMap_nil, List.append_nil, hline, hkne]
  · exact fun dv f ls h => outGo_drop dv f ls h

theorem c7_amended_witness :
    formatInline ['z', 'z', 'z'] 7 = [['z', 'z', 'z']]
      ∧ outGo [] 1 [['z', 'z', 'z']] = [] :=
  ⟨c7_amended.1 7 ['z', 'z', 'z'] (by decide) (by decide) (by decide) (by decide)
      (by decide) (by decide) (by decide) (by decide) (by decide),
   c7_amended.2 [] 1 [['z', 'z', 'z']] (by decide)⟩

theorem insertParts_nil_chain : ∀ (parts : List Str), insertParts [] parts = chainTree parts
  | [] => rfl
  | [_] => rfl
  | p :: q :: rs => by
    show updateA p (TreeVal.dir (insertParts [] (q :: rs))) [] = _
    rw [insertParts_nil_chain (q :: rs)]
    rfl

theorem sortEntries_chain (parts : List Str) :
    sortEntries (chainTree parts) = chainTree parts := by
  cases parts with
  | nil => rfl
  | cons p rest => cases rest <;> rfl

theorem renderSorted_nil (f : Nat) (pre : Str) : renderSorted f [] pre = [] := by
  cases f <;> rfl

theorem renderSorted_chain : ∀ (parts : List Str) (f : Nat) (pre : Str),
    parts.length ≤ f → renderSorted f (chainTree parts) pre = chainRows pre parts := by
  intro parts
  induction parts with
  | nil =>
    intro f pre h
    rw [show chainTree [] = [] from rfl, renderSorted_nil]
    rfl
  | cons p rest ih =>
    intro f pre h
    cases f with
    | zero =>
      exfalso
      simp only [List.length_cons] at h
      omega
    | succ f =>
      simp only [List.length_cons] at h
      cases rest with
      | nil =>
        show renderSorted (f + 1) [(p, TreeVal.leaf)] pre = chainRows pre [p]
        simp only [renderSorted, List.isEmpty_nil, if_true, renderSorted_nil, chainRows,
          List.append_nil]
      | cons q rs =>
        show renderSorted (f + 1) [(p, TreeVal.dir (chainTree (q :: rs)))] pre
          = chainRows pre (p :: q :: rs)
        simp only [renderSorted, List.isEmpty_nil, if_true, renderSorted_nil,
          List.append_nil]
        rw [sortEntries_chain (q :: rs), ih f (pre ++ indentBlank) (by omega)]
        rfl

/-- C9 (amended): each changed path is split on its separator, each
segment becomes a tree node and the final segment is marked as a leaf
— for a single path the rendered tree is exactly one last-sibling row
per segment with indentation growing under it.  However tree nodes
are keyed by segment name alone, so a file and a directory sharing a
name at the same level are not both represented: the later-inserted
path overwrites the earlier one, as the concrete second conjunct shows
(`x/y` then `x` leaves only the leaf `x`, and the segment `y` has no
node). -/
theorem c9_amended :
    (∀ path : Str, renderFileTree [path] = chainRows [] (splitOnChar ('/') path))
      ∧ renderFileTree [['x', '/', 'y'], ['x']] = [['└', '─', '─', ' ', 'x']] := by
  constructor
  · intro path
    unfold renderFileTree buildTree
    rw [show List.foldl (fun t f => insertParts t (splitOnChar ('/') f)) [] [path]
        = insertParts [] (splitOnChar ('/') path) from rfl]
    rw [insertParts_nil_chain, sortEntries_chain]
    apply renderSorted_chain
    unfold treeFuel
    rw [show List.foldl (fun acc f => acc + 2 * (splitOnChar ('/') f).length + 1) 1 [path]
        = 1 + 2 * (splitOnChar ('/') path).length + 1 from rfl]
    omega
  · decide
